import Mathlib

/-!
Verification development for the page-alignment core of the `Compare`
repository (PDF page-by-page comparison).

The embedded code is the alignment engine and its cost model from the
main script (functions `normalizeText`, `tokenSet`, `jaccardCost`,
`combinedCost`, `alignmentParamsFromMatchWindow`, `buildAlignmentDP`).
Pixel comparison (`pagePixelCost`, delegating to the external
`pixelmatch` primitive over rendered canvases) is outside the embedded
core: pairwise page costs enter the alignment engine as an abstract
function `c : Nat → Nat → ℚ` standing for the memoized
`combinedCost(i, j, …)` of a pair of page indices, and `combinedCost`
itself is embedded with the pixel cost of the pair as an abstract
rational parameter.  JavaScript floating-point numbers are idealized as
rationals; JavaScript strings are idealized as Lean strings (the
engine's text handling is ASCII-oriented: lowercasing and the character
class `[a-z0-9]`).
-/

/-- A step of the edit script emitted by the alignment engine: the JS
objects `{type: "match", aIndex, bIndex, cost}`, `{type: "deleteA", aIndex}`
and `{type: "insertB", bIndex}`. -/
inductive Step where
  | matchStep (aIndex bIndex : Nat) (cost : ℚ)
  | deleteA (aIndex : Nat)
  | insertB (bIndex : Nat)
deriving DecidableEq, Repr

/-- The four derived alignment parameters returned by
`alignmentParamsFromMatchWindow`. -/
structure AlignParams where
  maxConsecutiveGaps : Int
  gapPenalty : ℚ
  badMatchCutoff : ℚ
  badMatchPenalty : ℚ
deriving DecidableEq, Repr

/-- Embeds `alignmentParamsFromMatchWindow` (source lines 153-162):
clamp the match window to [0,5], then derive the four DP parameters. -/
def alignmentParamsFromMatchWindow (matchWindow : Int) : AlignParams :=
  let mw : Int := max 0 (min 5 matchWindow)
  { maxConsecutiveGaps := mw
    gapPenalty := if mw = 0 then 999 else 0.22 - (mw : ℚ) * 0.032
    badMatchCutoff := 0.55 - (mw : ℚ) * 0.05
    badMatchPenalty := (mw : ℚ) * 0.04 }

/-- Character class of the regex `[a-z0-9]` used by `normalizeText`. -/
def isAlnumLower (ch : Char) : Bool :=
  ('a' ≤ ch && ch ≤ 'z') || ('0' ≤ ch && ch ≤ '9')

/-- Lowercase a character and map everything outside `[a-z0-9]` to a
space: pointwise form of `.toLowerCase().replace(/[^a-z0-9]+/g, " ")`
before the run-collapsing (the collapsing is done by `wordsAux` /
`joinSpace` below). -/
def keepAlnumLower (ch : Char) : Char :=
  let cl := ch.toLower
  if isAlnumLower cl then cl else ' '

/-- Splits a character list on spaces, dropping empty fragments: the
maximal space-free words, in order. -/
def wordsAux : List Char → List Char → List (List Char)
  | [], acc => if acc.isEmpty then [] else [acc.reverse]
  | ch :: rest, acc =>
      if ch = ' ' then
        (if acc.isEmpty then wordsAux rest [] else acc.reverse :: wordsAux rest [])
      else wordsAux rest (ch :: acc)

/-- Maximal alphanumeric words of the lowercased text, in order. -/
def normWords (s : String) : List (List Char) :=
  wordsAux (s.data.map keepAlnumLower) []

/-- Joins words with single spaces. -/
def joinSpace : List (List Char) → List Char
  | [] => []
  | [w] => w
  | w :: ws => w ++ ' ' :: joinSpace ws

/-- Embeds `normalizeText` (source lines 113-118):
`(s || "").toLowerCase().replace(/[^a-z0-9]+/g, " ").trim()`.
Replacing every maximal run of non-alphanumerics by one space and then
trimming is the same as joining the maximal alphanumeric words with
single spaces. -/
def normalizeText (s : String) : String :=
  String.mk (joinSpace (normWords s))

/-- Embeds `tokenSet` (source lines 120-126): the set of whitespace
tokens of the normalized text whose length is at least 3.  Splitting the
normalized text (single-space-joined words) on whitespace returns
exactly `normWords`, so the tokens are taken from there; the JS `Set`
becomes a `Finset`. -/
def tokenSet (s : String) : Finset String :=
  (((normWords s).filter (fun w => 3 ≤ w.length)).map String.mk).toFinset

/-- Embeds `jaccardCost` (source lines 128-139): 0.5 if both token sets
are empty, 1 if exactly one is, otherwise the Jaccard distance computed
as `1 - inter / (|A| + |B| - inter)` (with the JS guard `union ? … : 0`). -/
def jaccardCost (textA textB : String) : ℚ :=
  let A := tokenSet textA
  let B := tokenSet textB
  if A.card = 0 ∧ B.card = 0 then 0.5
  else if A.card = 0 ∨ B.card = 0 then 1
  else
    let inter := (A ∩ B).card
    let union := A.card + B.card - inter
    let sim : ℚ := if union ≠ 0 then (inter : ℚ) / (union : ℚ) else 0
    1 - sim

/-- Embeds `combinedCost` (source lines 141-151).  The pixel cost of the
pair (`pagePixelCost` of the two downscaled canvases, an external
pixel-difference computation) is the abstract parameter `pCost`. -/
def combinedCost (pCost : ℚ) (aText bText : String) (scanned : Bool) : ℚ :=
  if scanned then pCost
  else
    let tCost := jaccardCost aText bText
    let aHasText := 20 < (normalizeText aText).length
    let bHasText := 20 < (normalizeText bText).length
    let wText : ℚ := if aHasText ∧ bHasText then 0.75 else 0.25
    wText * tCost + (1 - wText) * pCost

/-- One DP cell: `dp[i][j]`, `back[i][j]`, `gapA[i][j]`, `gapB[i][j]`
(source lines 185-188). -/
structure Cell where
  dp : ℚ
  bk : Nat
  gA : Nat
  gB : Nat
deriving DecidableEq, Repr

/-- JS `<=` on candidate costs where `none` stands for `Infinity`
(`Infinity <= Infinity` is true in JS). -/
def oleq : Option ℚ → Option ℚ → Bool
  | some x, some y => decide (x ≤ y)
  | some _, none => true
  | none, some _ => false
  | none, none => true

/-- Embeds the interior DP cell update (source lines 214-234) for one
cell, given its raw match cost and the diagonal, upper and left
neighbour cells: add `badMatchPenalty` to a raw cost above
`badMatchCutoff`; gap moves are `none` (infinite) when the incoming
consecutive-gap run has reached `maxConsecutiveGaps`; ties prefer the
diagonal, then up. -/
def stepCell (P : AlignParams) (rawCost : ℚ) (diag up left : Cell) : Cell :=
  let matchCost := if P.badMatchCutoff < rawCost then rawCost + P.badMatchPenalty else rawCost
  let cDiag := diag.dp + matchCost
  let cUp : Option ℚ :=
    if (up.gA : Int) < P.maxConsecutiveGaps then some (up.dp + P.gapPenalty) else none
  let cLeft : Option ℚ :=
    if (left.gB : Int) < P.maxConsecutiveGaps then some (left.dp + P.gapPenalty) else none
  if oleq (some cDiag) cUp && oleq (some cDiag) cLeft then
    ⟨cDiag, 0, 0, 0⟩
  else if oleq cUp cLeft then
    ⟨cUp.getD 0, 1, up.gA + 1, 0⟩
  else
    ⟨cLeft.getD 0, 2, 0, left.gB + 1⟩

/-- Row 0 of the DP table (source lines 190, 197-201): `dp[0][0] = 0`,
`dp[0][j] = dp[0][j-1] + gapPenalty`, `back[0][j] = 2`,
`gapB[0][j] = gapB[0][j-1] + 1`. -/
def row0 (P : AlignParams) : Nat → Cell
  | 0 => ⟨0, 0, 0, 0⟩
  | j + 1 => ⟨(row0 P j).dp + P.gapPenalty, 2, 0, (row0 P j).gB + 1⟩

/-- Row `i+1` of the DP table from row `i` (source lines 192-196 for
column 0 and 214-234 for the interior): `mc j` is the raw match cost
`cost(i, j)` of pairing `A[i]` with `B[j]`. -/
def rowSucc (P : AlignParams) (prev : Nat → Cell) (mc : Nat → ℚ) : Nat → Cell
  | 0 => ⟨(prev 0).dp + P.gapPenalty, 1, (prev 0).gA + 1, 0⟩
  | j + 1 => stepCell P (mc j) (prev j) (prev (j + 1)) (rowSucc P prev mc j)

/-- The full DP table of `buildAlignmentDP` as a function of the cell
coordinates; `c i j` is the memoized pairwise cost `cost(i, j)`
(`combinedCost` of pages `A[i]` and `B[j]`, evaluated once per pair via
the read-through cache, source lines 203-212). -/
def dpTable (P : AlignParams) (c : Nat → Nat → ℚ) : Nat → Nat → Cell
  | 0 => row0 P
  | i + 1 => rowSucc P (dpTable P c i) (c i)

/-- Embeds the backtrace loop (source lines 237-252) in push order (the
source pushes steps while walking from `(n,m)` to `(0,0)` and reverses
at the end).  The `fuel` argument bounds the number of iterations; the
emitted match cost is the cached raw pairwise cost (`cache.get(…)`,
always populated for `0 ≤ i-1 < n`, `0 ≤ j-1 < m` by the forward pass),
hence `c (i-1) (j-1)`. -/
def pushSteps (bk : Nat → Nat → Nat) (c : Nat → Nat → ℚ) : Nat → Nat → Nat → List Step
  | 0, _, _ => []
  | fuel + 1, i, j =>
    if i = 0 ∧ j = 0 then []
    else
      match bk i j with
      | 0 => Step.matchStep (i - 1) (j - 1) (c (i - 1) (j - 1)) :: pushSteps bk c fuel (i - 1) (j - 1)
      | 1 => Step.deleteA (i - 1) :: pushSteps bk c fuel (i - 1) j
      | _ => Step.insertB (j - 1) :: pushSteps bk c fuel i (j - 1)

/-- The edit script produced by the general DP path (source lines
185-255): fill the table, backtrace from `(n, m)`, reverse. -/
def dpPath (P : AlignParams) (c : Nat → Nat → ℚ) (n m : Nat) : List Step :=
  (pushSteps (fun i j => (dpTable P c i j).bk) c (n + m) n m).reverse

/-- The `matchWindow === 0` fast path (source lines 173-183): pair pages
by position up to `min n m` (the loop index `count + k` spells out the
`for` loops from `count` to `n-1` and `m-1`). -/
def fastSteps (c : Nat → Nat → ℚ) (n m : Nat) : List Step :=
  let count := min n m
  ((List.range count).map fun i => Step.matchStep i i (c i i))
    ++ ((List.range (n - count)).map fun k => Step.deleteA (count + k))
    ++ ((List.range (m - count)).map fun k => Step.insertB (count + k))

/-- Embeds `buildAlignmentDP` (source lines 164-256), restricted to its
output `steps` (the returned `params` object is exactly
`alignmentParamsFromMatchWindow matchWindow`).  `c i j` abstracts the
memoized `combinedCost` of pages `A[i]` and `B[j]`; `n` and `m` are the
page counts. -/
def buildAlignmentDP (c : Nat → Nat → ℚ) (n m : Nat) (matchWindow : Int) : List Step :=
  if matchWindow = 0 then fastSteps c n m
  else dpPath (alignmentParamsFromMatchWindow matchWindow) c n m

/-- Closed form of the script the DP path produces when
`maxConsecutiveGaps = 0` (gap moves never legal in the interior): a
leading block of gaps from the seeded edge of the table, then matches
pairing the two documents end-aligned. -/
def endAligned (c : Nat → Nat → ℚ) (n m : Nat) : List Step :=
  if m ≤ n then
    ((List.range (n - m)).map Step.deleteA)
      ++ ((List.range m).map fun k => Step.matchStep (n - m + k) k (c (n - m + k) k))
  else
    ((List.range (m - n)).map Step.insertB)
      ++ ((List.range n).map fun k => Step.matchStep k (m - n + k) (c k (m - n + k)))

/-- The `aIndex` values carried by a script's steps (`matchStep` and
`deleteA`), in script order. -/
def aIndices (s : List Step) : List Nat :=
  s.filterMap fun st =>
    match st with
    | Step.matchStep a _ _ => some a
    | Step.deleteA a => some a
    | Step.insertB _ => none

/-- The `bIndex` values carried by a script's steps (`matchStep` and
`insertB`), in script order. -/
def bIndices (s : List Step) : List Nat :=
  s.filterMap fun st =>
    match st with
    | Step.matchStep _ b _ => some b
    | Step.deleteA _ => none
    | Step.insertB b => some b

/-- Recognizes `deleteA` steps. -/
def isDel : Step → Bool
  | Step.deleteA _ => true
  | _ => false

/-- Recognizes `insertB` steps. -/
def isIns : Step → Bool
  | Step.insertB _ => true
  | _ => false

/-- Length of the maximal leading run of `p`-steps. -/
def prefCount (p : Step → Bool) : List Step → Nat
  | [] => 0
  | x :: xs => if p x then prefCount p xs + 1 else 0

/-- Every run of consecutive `p`-steps that is immediately preceded by a
non-`p` step (equivalently: every maximal `p`-run except one starting at
the very beginning of the script) has length at most `g`. -/
def RunsBoundedAfterStart (p : Step → Bool) (g : Nat) (s : List Step) : Prop :=
  ∀ u x v w, s = u ++ x :: v ++ w → p x = false → (∀ y ∈ v, p y = true) → v.length ≤ g

section ParamLemmas

/-- Clamping is idempotent: the derived parameters depend on the match
window only through its clamp to [0,5]. -/
lemma params_clamp (t : Int) :
    alignmentParamsFromMatchWindow t = alignmentParamsFromMatchWindow (max 0 (min 5 t)) := by
  have h : max 0 (min 5 (max 0 (min 5 t))) = max 0 (min 5 t) := by omega
  simp only [alignmentParamsFromMatchWindow, h]

lemma params_clamp_eq {t : Int} (h1 : 0 ≤ t) (h5 : t ≤ 5) :
    max 0 (min 5 t) = t := by omega

lemma params_gapPenalty_pos {t : Int} (h1 : 1 ≤ t) (h5 : t ≤ 5) :
    0 < (alignmentParamsFromMatchWindow t).gapPenalty := by
  have hmw : max 0 (min 5 t) = t := by omega
  have ht : t ≠ 0 := by omega
  have htq : (t : ℚ) ≤ 5 := by exact_mod_cast h5
  simp only [alignmentParamsFromMatchWindow, hmw, if_neg ht]
  linarith

lemma params_badMatchPenalty_nonneg {t : Int} (h1 : 0 ≤ t) :
    0 ≤ (alignmentParamsFromMatchWindow t).badMatchPenalty := by
  have htq : (0 : ℚ) ≤ ((max 0 (min 5 t) : Int) : ℚ) := by
    have : (0 : Int) ≤ max 0 (min 5 t) := by omega
    exact_mod_cast this
  simp only [alignmentParamsFromMatchWindow]
  nlinarith

lemma params_badMatchCutoff_nonneg (t : Int) :
    0 ≤ (alignmentParamsFromMatchWindow t).badMatchCutoff := by
  have h0 : (0 : Int) ≤ max 0 (min 5 t) := by omega
  have h5 : max 0 (min 5 t) ≤ 5 := by omega
  have hq : ((max 0 (min 5 t) : Int) : ℚ) ≤ 5 := by exact_mod_cast h5
  simp only [alignmentParamsFromMatchWindow]
  linarith

lemma params_maxGaps_nonneg (t : Int) :
    0 ≤ (alignmentParamsFromMatchWindow t).maxConsecutiveGaps := by
  simp only [alignmentParamsFromMatchWindow]
  omega

end ParamLemmas

/-- Claim C10: over tolerance values 1..5 the derived parameters are
strictly monotone: `gapPenalty` strictly decreases (and equals the
sentinel 999 at tolerance 0), `badMatchCutoff` strictly decreases,
`badMatchPenalty` strictly increases; `maxConsecutiveGaps` is the
clamped tolerance. -/
theorem C10_param_monotonicity (s t : Int) (h1 : 1 ≤ s) (hst : s < t) (h5 : t ≤ 5) :
    (alignmentParamsFromMatchWindow t).gapPenalty
        < (alignmentParamsFromMatchWindow s).gapPenalty
    ∧ (alignmentParamsFromMatchWindow t).badMatchCutoff
        < (alignmentParamsFromMatchWindow s).badMatchCutoff
    ∧ (alignmentParamsFromMatchWindow s).badMatchPenalty
        < (alignmentParamsFromMatchWindow t).badMatchPenalty
    ∧ (∀ u : Int, (alignmentParamsFromMatchWindow u).maxConsecutiveGaps = max 0 (min 5 u))
    ∧ (alignmentParamsFromMatchWindow 0).gapPenalty = 999 := by
  have hs : max 0 (min 5 s) = s := by omega
  have ht : max 0 (min 5 t) = t := by omega
  have hs0 : s ≠ 0 := by omega
  have ht0 : t ≠ 0 := by omega
  have hq : (s : ℚ) < (t : ℚ) := by exact_mod_cast hst
  refine ⟨?_, ?_, ?_, ?_, ?_⟩
  · simp only [alignmentParamsFromMatchWindow, hs, ht, if_neg hs0, if_neg ht0]
    linarith
  · simp only [alignmentParamsFromMatchWindow, hs, ht]
    linarith
  · simp only [alignmentParamsFromMatchWindow, hs, ht]
    linarith
  · intro u
    simp only [alignmentParamsFromMatchWindow]
  · simp only [alignmentParamsFromMatchWindow]
    norm_num

/-- Witness for C10 at tolerances 1 and 2. -/
theorem C10_param_monotonicity_witness :
    (alignmentParamsFromMatchWindow 2).gapPenalty
        < (alignmentParamsFromMatchWindow 1).gapPenalty
    ∧ (alignmentParamsFromMatchWindow 2).badMatchCutoff
        < (alignmentParamsFromMatchWindow 1).badMatchCutoff
    ∧ (alignmentParamsFromMatchWindow 1).badMatchPenalty
        < (alignmentParamsFromMatchWindow 2).badMatchPenalty
    ∧ (∀ u : Int, (alignmentParamsFromMatchWindow u).maxConsecutiveGaps = max 0 (min 5 u))
    ∧ (alignmentParamsFromMatchWindow 0).gapPenalty = 999 :=
  C10_param_monotonicity 1 2 (by norm_num) (by norm_num) (by norm_num)

section CostModelLemmas

lemma jaccardCost_both_empty {a b : String} (ha : tokenSet a = ∅) (hb : tokenSet b = ∅) :
    jaccardCost a b = 0.5 := by
  simp [jaccardCost, ha, hb]

lemma jaccardCost_one_empty {a b : String}
    (h : (tokenSet a = ∅ ∧ tokenSet b ≠ ∅) ∨ (tokenSet a ≠ ∅ ∧ tokenSet b = ∅)) :
    jaccardCost a b = 1 := by
  rcases h with ⟨ha, hb⟩ | ⟨ha, hb⟩ <;>
    simp [jaccardCost, ha, hb, Finset.card_eq_zero]

lemma card_union_sub {a b : String} :
    (tokenSet a).card + (tokenSet b).card - (tokenSet a ∩ tokenSet b).card
      = (tokenSet a ∪ tokenSet b).card := by
  have := Finset.card_union_add_card_inter (tokenSet a) (tokenSet b)
  omega

lemma jaccardCost_nonempty {a b : String} (ha : tokenSet a ≠ ∅) (hb : tokenSet b ≠ ∅) :
    jaccardCost a b
      = 1 - ((tokenSet a ∩ tokenSet b).card : ℚ) / ((tokenSet a ∪ tokenSet b).card : ℚ) := by
  have ha' : (tokenSet a).card ≠ 0 := by simpa [Finset.card_eq_zero] using ha
  have hb' : (tokenSet b).card ≠ 0 := by simpa [Finset.card_eq_zero] using hb
  have hu : (tokenSet a ∪ tokenSet b).card ≠ 0 := by
    have hsub : tokenSet a ⊆ tokenSet a ∪ tokenSet b := Finset.subset_union_left
    have := Finset.card_le_card hsub
    omega
  simp only [jaccardCost, ha', hb', and_false, false_and, if_false, or_self, if_neg,
    not_false_iff, card_union_sub, ne_eq, hu, ite_true, if_pos]

lemma jaccardCost_bounds (a b : String) : 0 ≤ jaccardCost a b ∧ jaccardCost a b ≤ 1 := by
  by_cases ha : tokenSet a = ∅ <;> by_cases hb : tokenSet b = ∅
  · rw [jaccardCost_both_empty ha hb]; norm_num
  · rw [jaccardCost_one_empty (Or.inl ⟨ha, hb⟩)]; norm_num
  · rw [jaccardCost_one_empty (Or.inr ⟨ha, hb⟩)]; norm_num
  · rw [jaccardCost_nonempty ha hb]
    have hsub : tokenSet a ∩ tokenSet b ⊆ tokenSet a ∪ tokenSet b :=
      Finset.inter_subset_union
    have hle : ((tokenSet a ∩ tokenSet b).card : ℚ) ≤ ((tokenSet a ∪ tokenSet b).card : ℚ) := by
      exact_mod_cast Finset.card_le_card hsub
    have hpos : (0 : ℚ) < ((tokenSet a ∪ tokenSet b).card : ℚ) := by
      have ha' : (tokenSet a).card ≠ 0 := by simpa [Finset.card_eq_zero] using ha
      have hsub2 : tokenSet a ⊆ tokenSet a ∪ tokenSet b := Finset.subset_union_left
      have := Finset.card_le_card hsub2
      have : 0 < (tokenSet a ∪ tokenSet b).card := by omega
      exact_mod_cast this
    have h1 : ((tokenSet a ∩ tokenSet b).card : ℚ) / ((tokenSet a ∪ tokenSet b).card : ℚ) ≤ 1 :=
      (div_le_one hpos).mpr hle
    have h0 : 0 ≤ ((tokenSet a ∩ tokenSet b).card : ℚ) / ((tokenSet a ∪ tokenSet b).card : ℚ) :=
      div_nonneg (by positivity) (le_of_lt hpos)
    constructor <;> linarith

end CostModelLemmas

/-- Claim C7: `jaccardCost` (the spec's `textCost`) is in [0,1] and is
computed as 0.5 when both token sets are empty, 1 when exactly one is
empty, and the Jaccard distance `1 - |A ∩ B| / |A ∪ B|` otherwise. -/
theorem C7_textCost (a b : String) :
    0 ≤ jaccardCost a b ∧ jaccardCost a b ≤ 1
    ∧ (tokenSet a = ∅ → tokenSet b = ∅ → jaccardCost a b = 0.5)
    ∧ (tokenSet a = ∅ → tokenSet b ≠ ∅ → jaccardCost a b = 1)
    ∧ (tokenSet a ≠ ∅ → tokenSet b = ∅ → jaccardCost a b = 1)
    ∧ (tokenSet a ≠ ∅ → tokenSet b ≠ ∅ →
        jaccardCost a b
          = 1 - ((tokenSet a ∩ tokenSet b).card : ℚ) / ((tokenSet a ∪ tokenSet b).card : ℚ)) :=
  ⟨(jaccardCost_bounds a b).1, (jaccardCost_bounds a b).2,
    fun ha hb => jaccardCost_both_empty ha hb,
    fun ha hb => jaccardCost_one_empty (Or.inl ⟨ha, hb⟩),
    fun ha hb => jaccardCost_one_empty (Or.inr ⟨ha, hb⟩),
    fun ha hb => jaccardCost_nonempty ha hb⟩

/-- Witness for C7 on concrete texts: "abc def xy" tokenizes to
{abc, def}, "abc ghi" to {abc, ghi}, giving distance 1 - 1/3. -/
theorem C7_textCost_witness :
    jaccardCost "abc def xy" "abc ghi" = 2/3 ∧ tokenSet "abc def xy" ≠ ∅ := by
  constructor
  · have h := (C7_textCost "abc def xy" "abc ghi").2.2.2.2.2
      (by with_unfolding_all decide) (by with_unfolding_all decide)
    rw [h]
    have h1 : (tokenSet "abc def xy" ∩ tokenSet "abc ghi").card = 1 := by
      with_unfolding_all decide
    have h2 : (tokenSet "abc def xy" ∪ tokenSet "abc ghi").card = 3 := by
      with_unfolding_all decide
    rw [h1, h2]
    norm_num
  · with_unfolding_all decide

/-- Claim C8: with `scannedMode = false`, `combinedCost` classifies a
page as text-bearing exactly when its normalized text is longer than 20
characters, weights text cost 0.75 against pixel cost 0.25 when both
pages are text-bearing and 0.25 against 0.75 otherwise, and stays in
[0,1] whenever the pixel cost does (the text cost always does). -/
theorem C8_combinedCost (p : ℚ) (a b : String) (hp0 : 0 ≤ p) (hp1 : p ≤ 1) :
    combinedCost p a b false
      = (if 20 < (normalizeText a).length ∧ 20 < (normalizeText b).length
         then 0.75 * jaccardCost a b + 0.25 * p
         else 0.25 * jaccardCost a b + 0.75 * p)
    ∧ 0 ≤ combinedCost p a b false ∧ combinedCost p a b false ≤ 1 := by
  have hj := jaccardCost_bounds a b
  refine ⟨?_, ?_, ?_⟩ <;>
    · simp only [combinedCost, Bool.false_eq_true, if_false]
      split_ifs <;> [skip; skip] <;> norm_num <;> linarith [hj.1, hj.2]

/-- Witness for C8 at pixel cost 1/2 over texts with and without tokens. -/
theorem C8_combinedCost_witness :
    (combinedCost (1/2) "abcd efgh ijkl mnop qrst" "" false
        = (if 20 < (normalizeText "abcd efgh ijkl mnop qrst").length
              ∧ 20 < (normalizeText "").length
           then 0.75 * jaccardCost "abcd efgh ijkl mnop qrst" "" + 0.25 * (1/2)
           else 0.25 * jaccardCost "abcd efgh ijkl mnop qrst" "" + 0.75 * (1/2))
      ∧ 0 ≤ combinedCost (1/2) "abcd efgh ijkl mnop qrst" "" false
      ∧ combinedCost (1/2) "abcd efgh ijkl mnop qrst" "" false ≤ 1) :=
  C8_combinedCost (1/2) "abcd efgh ijkl mnop qrst" "" (by norm_num) (by norm_num)


section IndexListLemmas

lemma aIndices_nil : aIndices [] = [] := rfl

lemma aIndices_cons_match (a b : Nat) (q : ℚ) (l : List Step) :
    aIndices (Step.matchStep a b q :: l) = a :: aIndices l := rfl

lemma aIndices_cons_del (a : Nat) (l : List Step) :
    aIndices (Step.deleteA a :: l) = a :: aIndices l := rfl

lemma aIndices_cons_ins (b : Nat) (l : List Step) :
    aIndices (Step.insertB b :: l) = aIndices l := rfl

lemma bIndices_nil : bIndices [] = [] := rfl

lemma bIndices_cons_match (a b : Nat) (q : ℚ) (l : List Step) :
    bIndices (Step.matchStep a b q :: l) = b :: bIndices l := rfl

lemma bIndices_cons_del (a : Nat) (l : List Step) :
    bIndices (Step.deleteA a :: l) = bIndices l := rfl

lemma bIndices_cons_ins (b : Nat) (l : List Step) :
    bIndices (Step.insertB b :: l) = b :: bIndices l := rfl

lemma aIndices_reverse (l : List Step) : aIndices l.reverse = (aIndices l).reverse :=
  List.filterMap_reverse _ _

lemma bIndices_reverse (l : List Step) : bIndices l.reverse = (bIndices l).reverse :=
  List.filterMap_reverse _ _

lemma aIndices_map_match (c : Nat → Nat → ℚ) (l : List Nat) :
    aIndices (l.map fun i => Step.matchStep i i (c i i)) = l := by
  induction l with
  | nil => rfl
  | cons x xs ih => rw [List.map_cons, aIndices_cons_match, ih]

lemma bIndices_map_match (c : Nat → Nat → ℚ) (l : List Nat) :
    bIndices (l.map fun i => Step.matchStep i i (c i i)) = l := by
  induction l with
  | nil => rfl
  | cons x xs ih => rw [List.map_cons, bIndices_cons_match, ih]

lemma aIndices_map_del (f : Nat → Nat) (l : List Nat) :
    aIndices (l.map fun k => Step.deleteA (f k)) = l.map f := by
  induction l with
  | nil => rfl
  | cons x xs ih => rw [List.map_cons, aIndices_cons_del, ih, List.map_cons]

lemma aIndices_map_ins (f : Nat → Nat) (l : List Nat) :
    aIndices (l.map fun k => Step.insertB (f k)) = [] := by
  induction l with
  | nil => rfl
  | cons x xs ih => rw [List.map_cons, aIndices_cons_ins, ih]

lemma bIndices_map_ins (f : Nat → Nat) (l : List Nat) :
    bIndices (l.map fun k => Step.insertB (f k)) = l.map f := by
  induction l with
  | nil => rfl
  | cons x xs ih => rw [List.map_cons, bIndices_cons_ins, ih, List.map_cons]

lemma bIndices_map_del (f : Nat → Nat) (l : List Nat) :
    bIndices (l.map fun k => Step.deleteA (f k)) = [] := by
  induction l with
  | nil => rfl
  | cons x xs ih => rw [List.map_cons, bIndices_cons_del, ih]

lemma aIndices_append (l₁ l₂ : List Step) :
    aIndices (l₁ ++ l₂) = aIndices l₁ ++ aIndices l₂ :=
  List.filterMap_append _ _ _

lemma bIndices_append (l₁ l₂ : List Step) :
    bIndices (l₁ ++ l₂) = bIndices l₁ ++ bIndices l₂ :=
  List.filterMap_append _ _ _

end IndexListLemmas

section BacktraceIndexLemmas

variable (bk : Nat → Nat → Nat) (c : Nat → Nat → ℚ)

/-- Along the backtrace, the `aIndex` values pushed from state `(i, j)`
are exactly `i-1, i-2, …, 0`: the push-order list of A indices is
`(range i).reverse`, provided the boundary cells of the table send
column 0 up (`back = 1`) and row 0 left (`back = 2`). -/
lemma pushSteps_aIndices (h0 : ∀ j, bk 0 (j + 1) = 2) (h1 : ∀ i, bk (i + 1) 0 = 1) :
    ∀ fuel i j, i + j ≤ fuel →
      aIndices (pushSteps bk c fuel i j) = (List.range i).reverse := by
  intro fuel
  induction fuel with
  | zero =>
    intro i j h
    have hi : i = 0 := by omega
    have hj : j = 0 := by omega
    subst hi; subst hj
    rfl
  | succ fuel ih =>
    intro i j h
    by_cases hij : i = 0 ∧ j = 0
    · obtain ⟨hi, hj⟩ := hij
      subst hi; subst hj
      rw [pushSteps, if_pos ⟨rfl, rfl⟩]
      rfl
    · rcases hbk : bk i j with _ | _ | k
      · -- diagonal move: match step
        obtain ⟨i', rfl⟩ : ∃ i', i = i' + 1 := by
          rcases i with _ | i'
          · exfalso
            rcases j with _ | j'
            · exact hij ⟨rfl, rfl⟩
            · have := h0 j'; omega
          · exact ⟨i', rfl⟩
        obtain ⟨j', rfl⟩ : ∃ j', j = j' + 1 := by
          rcases j with _ | j'
          · exfalso; have := h1 i'; omega
          · exact ⟨j', rfl⟩
        rw [pushSteps, if_neg hij, hbk]
        show aIndices (Step.matchStep i' j' (c i' j') :: pushSteps bk c fuel i' j')
            = (List.range (i' + 1)).reverse
        rw [aIndices_cons_match, ih i' j' (by omega), List.range_succ]
        simp
      · -- up move: deleteA step
        obtain ⟨i', rfl⟩ : ∃ i', i = i' + 1 := by
          rcases i with _ | i'
          · exfalso
            rcases j with _ | j'
            · exact hij ⟨rfl, rfl⟩
            · have := h0 j'; omega
          · exact ⟨i', rfl⟩
        rw [pushSteps, if_neg hij, hbk]
        show aIndices (Step.deleteA i' :: pushSteps bk c fuel i' j)
            = (List.range (i' + 1)).reverse
        rw [aIndices_cons_del, ih i' j (by omega), List.range_succ]
        simp
      · -- left move: insertB step
        obtain ⟨j', rfl⟩ : ∃ j', j = j' + 1 := by
          rcases j with _ | j'
          · exfalso
            rcases i with _ | i'
            · exact hij ⟨rfl, rfl⟩
            · have := h1 i'; omega
          · exact ⟨j', rfl⟩
        rw [pushSteps, if_neg hij, hbk]
        show aIndices (Step.insertB j' :: pushSteps bk c fuel i j')
            = (List.range i).reverse
        rw [aIndices_cons_ins]
        exact ih i j' (by omega)

/-- Along the backtrace, the push-order list of B indices is
`(range j).reverse`. -/
lemma pushSteps_bIndices (h0 : ∀ j, bk 0 (j + 1) = 2) (h1 : ∀ i, bk (i + 1) 0 = 1) :
    ∀ fuel i j, i + j ≤ fuel →
      bIndices (pushSteps bk c fuel i j) = (List.range j).reverse := by
  intro fuel
  induction fuel with
  | zero =>
    intro i j h
    have hi : i = 0 := by omega
    have hj : j = 0 := by omega
    subst hi; subst hj
    rfl
  | succ fuel ih =>
    intro i j h
    by_cases hij : i = 0 ∧ j = 0
    · obtain ⟨hi, hj⟩ := hij
      subst hi; subst hj
      rw [pushSteps, if_pos ⟨rfl, rfl⟩]
      rfl
    · rcases hbk : bk i j with _ | _ | k
      · obtain ⟨i', rfl⟩ : ∃ i', i = i' + 1 := by
          rcases i with _ | i'
          · exfalso
            rcases j with _ | j'
            · exact hij ⟨rfl, rfl⟩
            · have := h0 j'; omega
          · exact ⟨i', rfl⟩
        obtain ⟨j', rfl⟩ : ∃ j', j = j' + 1 := by
          rcases j with _ | j'
          · exfalso; have := h1 i'; omega
          · exact ⟨j', rfl⟩
        rw [pushSteps, if_neg hij, hbk]
        show bIndices (Step.matchStep i' j' (c i' j') :: pushSteps bk c fuel i' j')
            = (List.range (j' + 1)).reverse
        rw [bIndices_cons_match, ih i' j' (by omega), List.range_succ]
        simp
      · obtain ⟨i', rfl⟩ : ∃ i', i = i' + 1 := by
          rcases i with _ | i'
          · exfalso
            rcases j with _ | j'
            · exact hij ⟨rfl, rfl⟩
            · have := h0 j'; omega
          · exact ⟨i', rfl⟩
        rw [pushSteps, if_neg hij, hbk]
        show bIndices (Step.deleteA i' :: pushSteps bk c fuel i' j)
            = (List.range j).reverse
        rw [bIndices_cons_del]
        exact ih i' j (by omega)
      · obtain ⟨j', rfl⟩ : ∃ j', j = j' + 1 := by
          rcases j with _ | j'
          · exfalso
            rcases i with _ | i'
            · exact hij ⟨rfl, rfl⟩
            · have := h1 i'; omega
          · exact ⟨j', rfl⟩
        rw [pushSteps, if_neg hij, hbk]
        show bIndices (Step.insertB j' :: pushSteps bk c fuel i j')
            = (List.range (j' + 1)).reverse
        rw [bIndices_cons_ins, ih i j' (by omega), List.range_succ]
        simp

end BacktraceIndexLemmas

lemma dpTable_bk_row0 (P : AlignParams) (c : Nat → Nat → ℚ) (j : Nat) :
    (dpTable P c 0 (j + 1)).bk = 2 := rfl

lemma dpTable_bk_col0 (P : AlignParams) (c : Nat → Nat → ℚ) (i : Nat) :
    (dpTable P c (i + 1) 0).bk = 1 := rfl

lemma dpPath_aIndices (P : AlignParams) (c : Nat → Nat → ℚ) (n m : Nat) :
    aIndices (dpPath P c n m) = List.range n := by
  unfold dpPath
  rw [aIndices_reverse,
    pushSteps_aIndices _ c (dpTable_bk_row0 P c) (dpTable_bk_col0 P c) (n + m) n m le_rfl]
  simp

lemma dpPath_bIndices (P : AlignParams) (c : Nat → Nat → ℚ) (n m : Nat) :
    bIndices (dpPath P c n m) = List.range m := by
  unfold dpPath
  rw [bIndices_reverse,
    pushSteps_bIndices _ c (dpTable_bk_row0 P c) (dpTable_bk_col0 P c) (n + m) n m le_rfl]
  simp

lemma fastSteps_aIndices (c : Nat → Nat → ℚ) (n m : Nat) :
    aIndices (fastSteps c n m) = List.range n := by
  have hc : min n m + (n - min n m) = n := by omega
  simp only [fastSteps, aIndices_append, aIndices_map_match, aIndices_map_del,
    aIndices_map_ins, List.append_nil]
  rw [← List.range_add, hc]

lemma fastSteps_bIndices (c : Nat → Nat → ℚ) (n m : Nat) :
    bIndices (fastSteps c n m) = List.range m := by
  have hc : min n m + (m - min n m) = m := by
    omega
  simp only [fastSteps, bIndices_append, bIndices_map_match, bIndices_map_del,
    bIndices_map_ins, List.append_nil]
  rw [← List.range_add, hc]

lemma build_aIndices (c : Nat → Nat → ℚ) (n m : Nat) (t : Int) :
    aIndices (buildAlignmentDP c n m t) = List.range n := by
  unfold buildAlignmentDP
  split_ifs
  · exact fastSteps_aIndices c n m
  · exact dpPath_aIndices _ c n m

lemma build_bIndices (c : Nat → Nat → ℚ) (n m : Nat) (t : Int) :
    bIndices (buildAlignmentDP c n m t) = List.range m := by
  unfold buildAlignmentDP
  split_ifs
  · exact fastSteps_bIndices c n m
  · exact dpPath_bIndices _ c n m

/-- Claim C1: for every input and settings, the `aIndex` values carried
by Match and DeleteA steps are exactly `0, …, n-1` (each A index in
exactly one such step) and the `bIndex` values carried by Match and
InsertB steps are exactly `0, …, m-1`, on both the tolerance-0 fast path
and the general DP path. -/
theorem C1_index_partition (c : Nat → Nat → ℚ) (n m : Nat) (t : Int) :
    aIndices (buildAlignmentDP c n m t) = List.range n
    ∧ bIndices (buildAlignmentDP c n m t) = List.range m :=
  ⟨build_aIndices c n m t, build_bIndices c n m t⟩

/-- Claim C6: across the script, the `aIndex` values of steps that carry
one are non-decreasing, and so are the `bIndex` values. -/
theorem C6_index_ordering (c : Nat → Nat → ℚ) (n m : Nat) (t : Int) :
    (aIndices (buildAlignmentDP c n m t)).Pairwise (· ≤ ·)
    ∧ (bIndices (buildAlignmentDP c n m t)).Pairwise (· ≤ ·) := by
  rw [build_aIndices c n m t, build_bIndices c n m t]
  exact ⟨List.pairwise_le_range n, List.pairwise_le_range m⟩

/-- Claim C5: with tolerance 0 the engine skips the DP and returns Match
steps pairing `A[k]` with `B[k]` (cost `c k k`) for `k < min n m`,
followed by trailing `DeleteA` steps for `min n m ≤ k < n` or trailing
`InsertB` steps for `min n m ≤ k < m`; the script has `max n m` steps. -/
theorem C5_fast_path (c : Nat → Nat → ℚ) (n m : Nat) :
    (buildAlignmentDP c n m 0).length = max n m
    ∧ (∀ k, k < min n m →
        (buildAlignmentDP c n m 0)[k]? = some (Step.matchStep k k (c k k)))
    ∧ (∀ k, min n m ≤ k → k < n →
        (buildAlignmentDP c n m 0)[k]? = some (Step.deleteA k))
    ∧ (∀ k, min n m ≤ k → k < m →
        (buildAlignmentDP c n m 0)[k]? = some (Step.insertB k)) := by
  have hb : buildAlignmentDP c n m 0 = fastSteps c n m := by
    unfold buildAlignmentDP
    simp
  rw [hb]
  refine ⟨?_, ?_, ?_, ?_⟩
  · simp only [fastSteps, List.length_append, List.length_map, List.length_range]
    omega
  · intro k hk
    simp only [fastSteps]
    rw [List.getElem?_append_left (by simp; omega),
      List.getElem?_append_left (by simpa using hk),
      List.getElem?_map, List.getElem?_range hk]
    rfl
  · intro k hk1 hk2
    simp only [fastSteps]
    have hmn : min n m = m := by omega
    rw [List.getElem?_append_left (by simp; omega),
      List.getElem?_append_right (by simpa using hk1),
      List.getElem?_map, List.length_map, List.length_range,
      List.getElem?_range (by omega)]
    have harg : min n m + (k - min n m) = k := by omega
    simp [harg]
  · intro k hk1 hk2
    simp only [fastSteps]
    have hmn : min n m = n := by omega
    rw [List.getElem?_append_right (by simp; omega),
      List.getElem?_map, List.length_append, List.length_map, List.length_map,
      List.length_range, List.length_range,
      List.getElem?_range (by omega)]
    have harg : min n m + (k - (min n m + (n - min n m))) = k := by omega
    simp
    omega

/-- Witness for C5 at concrete sizes 2 vs 3 (insert side) and 3 vs 1
(delete side). -/
theorem C5_fast_path_witness :
    (buildAlignmentDP (fun _ _ => (0 : ℚ)) 2 3 0)[1]? = some (Step.matchStep 1 1 0)
    ∧ (buildAlignmentDP (fun _ _ => (0 : ℚ)) 2 3 0)[2]? = some (Step.insertB 2)
    ∧ (buildAlignmentDP (fun _ _ => (0 : ℚ)) 3 1 0)[2]? = some (Step.deleteA 2)
    ∧ (buildAlignmentDP (fun _ _ => (0 : ℚ)) 2 3 0).length = 3 :=
  ⟨(C5_fast_path (fun _ _ => (0 : ℚ)) 2 3).2.1 1 (by norm_num),
   (C5_fast_path (fun _ _ => (0 : ℚ)) 2 3).2.2.2 2 (by norm_num) (by norm_num),
   (C5_fast_path (fun _ _ => (0 : ℚ)) 3 1).2.2.1 2 (by norm_num) (by norm_num),
   by simpa using (C5_fast_path (fun _ _ => (0 : ℚ)) 2 3).1⟩


section ZeroGapDP

/-- With `maxConsecutiveGaps ≤ 0` both gap candidates are illegal
(infinite), so an interior cell always records a diagonal move. -/
lemma stepCell_no_gaps (P : AlignParams) (mc : ℚ) (d u l : Cell)
    (hP : P.maxConsecutiveGaps ≤ 0) :
    stepCell P mc d u l
      = ⟨d.dp + (if P.badMatchCutoff < mc then mc + P.badMatchPenalty else mc), 0, 0, 0⟩ := by
  have h1 : ¬ ((u.gA : Int) < P.maxConsecutiveGaps) := by omega
  have h2 : ¬ ((l.gB : Int) < P.maxConsecutiveGaps) := by omega
  simp only [stepCell, if_neg h1, if_neg h2, oleq, Bool.and_self, if_true]

lemma dpTable_bk_interior_no_gaps (P : AlignParams) (c : Nat → Nat → ℚ)
    (hP : P.maxConsecutiveGaps ≤ 0) (i j : Nat) :
    (dpTable P c (i + 1) (j + 1)).bk = 0 := by
  have h : dpTable P c (i + 1) (j + 1)
      = stepCell P (c i j) (dpTable P c i j) (dpTable P c i (j + 1)) (dpTable P c (i + 1) j) :=
    rfl
  rw [h, stepCell_no_gaps P _ _ _ _ hP]

/-- Backtracing a table whose interior is all diagonal moves yields the
end-aligned script: the reversed push list from `(i, j)` is
`endAligned c i j`. -/
lemma pushSteps_endAligned (bk : Nat → Nat → Nat) (c : Nat → Nat → ℚ)
    (h0 : ∀ j, bk 0 (j + 1) = 2) (h1 : ∀ i, bk (i + 1) 0 = 1)
    (hd : ∀ i j, bk (i + 1) (j + 1) = 0) :
    ∀ fuel i j, i + j ≤ fuel →
      (pushSteps bk c fuel i j).reverse = endAligned c i j := by
  intro fuel
  induction fuel with
  | zero =>
    intro i j h
    have hi : i = 0 := by omega
    have hj : j = 0 := by omega
    subst hi; subst hj
    simp [pushSteps, endAligned]
  | succ fuel ih =>
    intro i j h
    rcases i with _ | i <;> rcases j with _ | j
    · simp [pushSteps, endAligned]
    · -- row 0, column j+1: insert
      rw [pushSteps, if_neg (by simp), h0 j]
      show (Step.insertB j :: pushSteps bk c fuel 0 j).reverse = endAligned c 0 (j + 1)
      rw [List.reverse_cons, ih 0 j (by omega)]
      rcases j with _ | j
      · simp [endAligned, List.range_succ]
      · rw [endAligned, if_neg (by omega), endAligned, if_neg (by omega)]
        simp [List.range_succ]
    · -- column 0, row i+1: delete
      rw [pushSteps, if_neg (by simp), h1 i]
      show (Step.deleteA i :: pushSteps bk c fuel i 0).reverse = endAligned c (i + 1) 0
      rw [List.reverse_cons, ih i 0 (by omega)]
      rw [endAligned, if_pos (by omega), endAligned, if_pos (by omega)]
      simp [List.range_succ]
    · -- interior: diagonal match
      rw [pushSteps, if_neg (by simp), hd i j]
      show (Step.matchStep i j (c i j) :: pushSteps bk c fuel i j).reverse
          = endAligned c (i + 1) (j + 1)
      rw [List.reverse_cons, ih i j (by omega)]
      by_cases hji : j ≤ i
      · have hsub : i + 1 - (j + 1) = i - j := by omega
        have hij2 : i - j + j = i := by omega
        rw [endAligned, if_pos hji, endAligned, if_pos (by omega : j + 1 ≤ i + 1), hsub,
          List.range_succ, List.map_append, List.append_assoc]
        simp [hij2]
      · have hsub : j + 1 - (i + 1) = j - i := by omega
        have hij2 : j - i + i = j := by omega
        rw [endAligned, if_neg hji, endAligned, if_neg (by omega), hsub,
          List.range_succ, List.map_append, List.append_assoc]
        simp [hij2]

/-- The general DP path with `maxConsecutiveGaps ≤ 0` produces the
end-aligned script. -/
lemma dpPath_no_gaps (P : AlignParams) (c : Nat → Nat → ℚ) (n m : Nat)
    (hP : P.maxConsecutiveGaps ≤ 0) :
    dpPath P c n m = endAligned c n m := by
  unfold dpPath
  exact pushSteps_endAligned _ c (dpTable_bk_row0 P c) (dpTable_bk_col0 P c)
    (dpTable_bk_interior_no_gaps P c hP) (n + m) n m le_rfl

end ZeroGapDP

lemma params0_maxGaps : (alignmentParamsFromMatchWindow 0).maxConsecutiveGaps = 0 := rfl

/-- Claim C3 (amended): the general DP path with `maxConsecutiveGaps = 0`
(the tolerance-0 parameter derivation) produces the end-aligned script —
leading DeleteA steps (if A is longer) or leading InsertB steps (if B is
longer), then matches pairing the documents end-aligned — and it
coincides with the tolerance-0 fast path precisely when the documents
have equal length or one of them is empty (then both scripts are the
same pure gap block); when both documents are nonempty and of different
lengths, the two scripts differ already at their first step. -/
theorem C3_fast_path_vs_dp (c : Nat → Nat → ℚ) (n m : Nat) :
    dpPath (alignmentParamsFromMatchWindow 0) c n m = endAligned c n m
    ∧ (buildAlignmentDP c n m 0 = dpPath (alignmentParamsFromMatchWindow 0) c n m
        ↔ (n = m ∨ min n m = 0)) := by
  have hdp : dpPath (alignmentParamsFromMatchWindow 0) c n m = endAligned c n m :=
    dpPath_no_gaps _ c n m (by rw [params0_maxGaps])
  have hfast : buildAlignmentDP c n m 0 = fastSteps c n m := by
    unfold buildAlignmentDP
    rw [if_pos rfl]
  refine ⟨hdp, ?_⟩
  rw [hdp, hfast]
  constructor
  · intro heq
    by_cases hnm : n = m
    · exact Or.inl hnm
    by_cases hmin : min n m = 0
    · exact Or.inr hmin
    exfalso
    have hf0 : (fastSteps c n m)[0]? = some (Step.matchStep 0 0 (c 0 0)) := by
      simp only [fastSteps]
      rw [List.getElem?_append_left (by simp; omega),
        List.getElem?_append_left (by simp; omega),
        List.getElem?_map, List.getElem?_range (by omega)]
      rfl
    rcases Nat.lt_or_ge m n with hmn | hmn
    · have he0 : (endAligned c n m)[0]? = some (Step.deleteA 0) := by
        rw [endAligned, if_pos (by omega)]
        rw [List.getElem?_append_left (by simp; omega),
          List.getElem?_map, List.getElem?_range (by omega)]
        rfl
      rw [heq, he0] at hf0
      simp at hf0
    · have he0 : (endAligned c n m)[0]? = some (Step.insertB 0) := by
        rw [endAligned, if_neg (by omega)]
        rw [List.getElem?_append_left (by simp; omega),
          List.getElem?_map, List.getElem?_range (by omega)]
        rfl
      rw [heq, he0] at hf0
      simp at hf0
  · rintro (rfl | hmin)
    · unfold fastSteps endAligned
      simp
    · rcases Nat.min_eq_zero_iff.mp hmin with rfl | rfl
      · rcases m with _ | m
        · simp [fastSteps, endAligned]
        · rw [endAligned, if_neg (by omega)]
          simp [fastSteps]
      · rw [endAligned, if_pos (by omega)]
        simp [fastSteps]

/-- Witness for C3 at sizes 2 vs 1 (closed form of the zero-gap DP
path), 1 vs 1 (equal lengths) and 1 vs 0 (an empty document: the two
paths coincide although the lengths differ). -/
theorem C3_fast_path_vs_dp_witness :
    dpPath (alignmentParamsFromMatchWindow 0) (fun _ _ => (0 : ℚ)) 2 1
        = endAligned (fun _ _ => (0 : ℚ)) 2 1
    ∧ buildAlignmentDP (fun _ _ => (0 : ℚ)) 1 1 0
        = dpPath (alignmentParamsFromMatchWindow 0) (fun _ _ => (0 : ℚ)) 1 1
    ∧ buildAlignmentDP (fun _ _ => (0 : ℚ)) 1 0 0
        = dpPath (alignmentParamsFromMatchWindow 0) (fun _ _ => (0 : ℚ)) 1 0 :=
  ⟨(C3_fast_path_vs_dp (fun _ _ => (0 : ℚ)) 2 1).1,
   (C3_fast_path_vs_dp (fun _ _ => (0 : ℚ)) 1 1).2.mpr (Or.inl rfl),
   (C3_fast_path_vs_dp (fun _ _ => (0 : ℚ)) 1 0).2.mpr (Or.inr rfl)⟩

/-- Counterexample to C3 as stated: for a 2-page document A against a
1-page document B (all pairwise costs 0, as for pixel-identical blank
scanned pages), tolerance 0 yields `[Match(0,0), DeleteA(1)]` while the
DP path with `maxConsecutiveGaps = 0` yields `[DeleteA(0), Match(1,0)]`:
the two scripts differ whenever the documents have different lengths. -/
theorem C3_counterexample :
    buildAlignmentDP (fun _ _ => (0 : ℚ)) 2 1 0 = [Step.matchStep 0 0 0, Step.deleteA 1]
    ∧ dpPath (alignmentParamsFromMatchWindow 0) (fun _ _ => (0 : ℚ)) 2 1
        = [Step.deleteA 0, Step.matchStep 1 0 0]
    ∧ buildAlignmentDP (fun _ _ => (0 : ℚ)) 2 1 0
        ≠ dpPath (alignmentParamsFromMatchWindow 0) (fun _ _ => (0 : ℚ)) 2 1 := by
  refine ⟨?_, ?_, ?_⟩ <;> with_unfolding_all decide

/-- Claim C9 (amended): the engine never rejects an out-of-range
tolerance; `alignmentParamsFromMatchWindow` silently clamps it to [0,5].
Above 5 the run behaves exactly like tolerance 5; below 0 the DP path
runs with `maxConsecutiveGaps = 0` and still returns a complete
end-aligned EditScript. -/
theorem C9_no_rejection (c : Nat → Nat → ℚ) (n m : Nat) (t : Int) :
    (5 < t → buildAlignmentDP c n m t = buildAlignmentDP c n m 5)
    ∧ (t < 0 → buildAlignmentDP c n m t = endAligned c n m)
    ∧ alignmentParamsFromMatchWindow t
        = alignmentParamsFromMatchWindow (max 0 (min 5 t)) := by
  refine ⟨?_, ?_, params_clamp t⟩
  · intro h
    have ht : t ≠ 0 := by omega
    have hp : alignmentParamsFromMatchWindow t = alignmentParamsFromMatchWindow 5 := by
      rw [params_clamp t]
      congr 1
      omega
    unfold buildAlignmentDP
    rw [if_neg ht, if_neg (by norm_num : (5 : Int) ≠ 0), hp]
  · intro h
    have ht : t ≠ 0 := by omega
    have hp : (alignmentParamsFromMatchWindow t).maxConsecutiveGaps ≤ 0 := by
      simp only [alignmentParamsFromMatchWindow]
      omega
    unfold buildAlignmentDP
    rw [if_neg ht]
    exact dpPath_no_gaps _ c n m hp

/-- Witness for C9 at tolerances 7 and -1. -/
theorem C9_no_rejection_witness :
    buildAlignmentDP (fun _ _ => (0 : ℚ)) 1 1 7 = buildAlignmentDP (fun _ _ => (0 : ℚ)) 1 1 5
    ∧ buildAlignmentDP (fun _ _ => (0 : ℚ)) 2 1 (-1) = endAligned (fun _ _ => (0 : ℚ)) 2 1 :=
  ⟨(C9_no_rejection (fun _ _ => (0 : ℚ)) 1 1 7).1 (by norm_num),
   (C9_no_rejection (fun _ _ => (0 : ℚ)) 2 1 (-1)).2.1 (by norm_num)⟩

set_option maxRecDepth 8000 in
/-- Counterexample to C9 as stated: at tolerance -1 (outside 0..5) the
engine does not raise any error — there is no validation code on this
path — but silently clamps the derived parameters and returns a complete
EditScript. -/
theorem C9_counterexample :
    buildAlignmentDP (fun _ _ => (0 : ℚ)) 2 1 (-1)
      = [Step.deleteA 0, Step.matchStep 1 0 0]
    ∧ alignmentParamsFromMatchWindow (-1) = alignmentParamsFromMatchWindow 0 := by
  constructor <;> with_unfolding_all decide

section IdentityDP

lemma stepCell_dp_nonneg (P : AlignParams) (mc : ℚ) (d u l : Cell)
    (hmc : 0 ≤ mc) (hbp : 0 ≤ P.badMatchPenalty) (hgp : 0 ≤ P.gapPenalty)
    (hd : 0 ≤ d.dp) (hu : 0 ≤ u.dp) (hl : 0 ≤ l.dp) :
    0 ≤ (stepCell P mc d u l).dp := by
  simp only [stepCell]
  split_ifs <;> simp [Option.getD] <;> linarith

/-- Every `dp` entry of the table is nonnegative when all match costs
and penalties are. -/
lemma dpTable_dp_nonneg (P : AlignParams) (c : Nat → Nat → ℚ)
    (hc : ∀ i j, 0 ≤ c i j) (hbp : 0 ≤ P.badMatchPenalty) (hgp : 0 ≤ P.gapPenalty) :
    ∀ i j, 0 ≤ (dpTable P c i j).dp := by
  intro i
  induction i with
  | zero =>
    intro j
    induction j with
    | zero => norm_num [dpTable, row0]
    | succ j ihj =>
      show 0 ≤ (row0 P (j + 1)).dp
      rw [row0]
      dsimp only
      have h : 0 ≤ (row0 P j).dp := ihj
      linarith
  | succ i ihi =>
    intro j
    induction j with
    | zero =>
      show 0 ≤ (rowSucc P (dpTable P c i) (c i) 0).dp
      rw [rowSucc]
      dsimp only
      have h : 0 ≤ (dpTable P c i 0).dp := ihi 0
      linarith
    | succ j ihj =>
      exact stepCell_dp_nonneg P (c i j) (dpTable P c i j) (dpTable P c i (j + 1))
        (rowSucc P (dpTable P c i) (c i) j) (hc i j) hbp hgp (ihi j) (ihi (j + 1)) ihj

/-- A diagonal cell with zero incoming cost and zero raw match cost is
chosen over any (nonnegatively priced or illegal) gap move and stays at
zero, thanks to the diagonal-first tie-breaking. -/
lemma stepCell_diag_zero (P : AlignParams) (u l : Cell)
    (hgp : 0 ≤ P.gapPenalty) (hcut : 0 ≤ P.badMatchCutoff)
    (hu : 0 ≤ u.dp) (hl : 0 ≤ l.dp) :
    stepCell P 0 ⟨0, 0, 0, 0⟩ u l = ⟨0, 0, 0, 0⟩ := by
  have hmc : ¬ (P.badMatchCutoff < (0 : ℚ)) := not_lt.mpr hcut
  have hup : oleq (some ((0 : ℚ) + 0))
      (if (u.gA : Int) < P.maxConsecutiveGaps then some (u.dp + P.gapPenalty) else none)
      = true := by
    split_ifs
    · simp only [oleq, decide_eq_true_eq]
      linarith
    · rfl
  have hleft : oleq (some ((0 : ℚ) + 0))
      (if (l.gB : Int) < P.maxConsecutiveGaps then some (l.dp + P.gapPenalty) else none)
      = true := by
    split_ifs
    · simp only [oleq, decide_eq_true_eq]
      linarith
    · rfl
  simp only [stepCell, if_neg hmc, hup, hleft, Bool.and_self, if_true]
  norm_num

/-- On the diagonal of a self-comparison (`c i i = 0`) every cell is
`⟨0, 0, 0, 0⟩`; in particular its recorded move is diagonal. -/
lemma dpTable_diag (P : AlignParams) (c : Nat → Nat → ℚ)
    (hc0 : ∀ i, c i i = 0) (hc : ∀ i j, 0 ≤ c i j)
    (hbp : 0 ≤ P.badMatchPenalty) (hgp : 0 ≤ P.gapPenalty) (hcut : 0 ≤ P.badMatchCutoff) :
    ∀ i, dpTable P c i i = ⟨0, 0, 0, 0⟩ := by
  intro i
  induction i with
  | zero => rfl
  | succ i ih =>
    have h : dpTable P c (i + 1) (i + 1)
        = stepCell P (c i i) (dpTable P c i i) (dpTable P c i (i + 1))
            (dpTable P c (i + 1) i) := rfl
    rw [h, ih, hc0 i]
    exact stepCell_diag_zero P _ _ hgp hcut
      (dpTable_dp_nonneg P c hc hbp hgp i (i + 1))
      (dpTable_dp_nonneg P c hc hbp hgp (i + 1) i)

/-- Backtracing from `(n, n)` over a table whose diagonal records
diagonal moves yields `n` matches by position. -/
lemma pushSteps_diag (bk : Nat → Nat → Nat) (c : Nat → Nat → ℚ)
    (hdg : ∀ i, 1 ≤ i → bk i i = 0) :
    ∀ n fuel, n + n ≤ fuel →
      (pushSteps bk c fuel n n).reverse
        = (List.range n).map (fun i => Step.matchStep i i (c i i)) := by
  intro n
  induction n with
  | zero =>
    intro fuel h
    cases fuel <;> simp [pushSteps]
  | succ n ih =>
    intro fuel h
    rcases fuel with _ | f
    · omega
    · rw [pushSteps, if_neg (by simp), hdg (n + 1) (by omega)]
      show (Step.matchStep n n (c n n) :: pushSteps bk c f n n).reverse
          = (List.range (n + 1)).map (fun i => Step.matchStep i i (c i i))
      rw [List.reverse_cons, ih f (by omega), List.range_succ, List.map_append]
      rfl

end IdentityDP

lemma jaccardCost_self (a : String) (ha : tokenSet a ≠ ∅) : jaccardCost a a = 0 := by
  rw [jaccardCost_nonempty ha ha]
  have hne : ((tokenSet a).card : ℚ) ≠ 0 := by
    have : (tokenSet a).card ≠ 0 := by simpa [Finset.card_eq_zero] using ha
    exact_mod_cast this
  rw [Finset.inter_self, Finset.union_self, div_self hne]
  norm_num

/-- Claim C2 (amended): for a self-comparison whose per-page self costs
are all 0 — which the cost model delivers when `scannedMode` is true
(pixel cost 0 for identical pages) or when the page's token set is
nonempty — the EditScript is exactly `|D|` Match steps of cost 0 with no
DeleteA or InsertB steps, for every tolerance 0..5.  (For a page with an
empty token set in non-scanned mode the self cost is 0.125, not 0: see
the counterexample.) -/
theorem C2_identity (c : Nat → Nat → ℚ) (n : Nat) (t : Int)
    (hself : ∀ i, c i i = 0) (hpos : ∀ i j, 0 ≤ c i j) (ht0 : 0 ≤ t) (ht5 : t ≤ 5) :
    buildAlignmentDP c n n t = (List.range n).map (fun i => Step.matchStep i i 0)
    ∧ (∀ p a b, combinedCost p a b true = p)
    ∧ (∀ a, tokenSet a ≠ ∅ → combinedCost 0 a a false = 0) := by
  refine ⟨?_, fun p a b => rfl, ?_⟩
  · have hmap : (List.range n).map (fun i => Step.matchStep i i (c i i))
        = (List.range n).map (fun i => Step.matchStep i i 0) :=
      List.map_congr_left fun i _ => by rw [hself i]
    by_cases ht : t = 0
    · subst ht
      unfold buildAlignmentDP
      rw [if_pos rfl]
      unfold fastSteps
      simp only [min_self, Nat.sub_self, List.range_zero, List.map_nil, List.append_nil]
      exact hmap
    · have h1 : 1 ≤ t := by omega
      unfold buildAlignmentDP
      rw [if_neg ht]
      unfold dpPath
      have hdg : ∀ i, 1 ≤ i → (dpTable (alignmentParamsFromMatchWindow t) c i i).bk = 0 := by
        intro i hi
        rw [dpTable_diag (alignmentParamsFromMatchWindow t) c hself hpos
          (params_badMatchPenalty_nonneg ht0) (le_of_lt (params_gapPenalty_pos h1 ht5))
          (params_badMatchCutoff_nonneg t) i]
      rw [pushSteps_diag _ c hdg n (n + n) le_rfl]
      exact hmap
  · intro a ha
    simp only [combinedCost, Bool.false_eq_true, if_false, jaccardCost_self a ha]
    ring

/-- Witness for C2 with two identical zero-cost pages at tolerance 3. -/
theorem C2_identity_witness :
    buildAlignmentDP (fun _ _ => (0 : ℚ)) 2 2 3
      = [Step.matchStep 0 0 0, Step.matchStep 1 1 0] := by
  have h := (C2_identity (fun _ _ => (0 : ℚ)) 2 3 (fun _ => rfl) (fun _ _ => le_refl 0)
    (by norm_num) (by norm_num)).1
  rw [h]
  rfl

set_option maxRecDepth 8000 in
/-- Counterexample to C2 as stated: a single-page document with empty
extracted text compared against itself with `scannedMode = false` and a
pixel-identical page (pixel cost 0) yields a self-match cost of
`0.25 · 0.5 + 0.75 · 0 = 1/8`, not 0: the script is one Match step of
nonzero cost, for tolerance 0. -/
theorem C2_counterexample :
    buildAlignmentDP (fun _ _ => combinedCost 0 "" "" false) 1 1 0
      = [Step.matchStep 0 0 (1/8)]
    ∧ combinedCost 0 "" "" false ≠ 0 := by
  constructor <;> with_unfolding_all decide

section RunBoundLemmas

lemma pushSteps_eq_match (bk : Nat → Nat → Nat) (c : Nat → Nat → ℚ) (fuel i j : Nat)
    (hij : ¬(i = 0 ∧ j = 0)) (h : bk i j = 0) :
    pushSteps bk c (fuel + 1) i j
      = Step.matchStep (i - 1) (j - 1) (c (i - 1) (j - 1)) :: pushSteps bk c fuel (i - 1) (j - 1) := by
  rw [pushSteps, if_neg hij, h]

lemma pushSteps_eq_del (bk : Nat → Nat → Nat) (c : Nat → Nat → ℚ) (fuel i j : Nat)
    (hij : ¬(i = 0 ∧ j = 0)) (h : bk i j = 1) :
    pushSteps bk c (fuel + 1) i j
      = Step.deleteA (i - 1) :: pushSteps bk c fuel (i - 1) j := by
  rw [pushSteps, if_neg hij, h]

lemma pushSteps_eq_ins (bk : Nat → Nat → Nat) (c : Nat → Nat → ℚ) (fuel i j k : Nat)
    (hij : ¬(i = 0 ∧ j = 0)) (h : bk i j = k + 2) :
    pushSteps bk c (fuel + 1) i j
      = Step.insertB (j - 1) :: pushSteps bk c fuel i (j - 1) := by
  rw [pushSteps, if_neg hij, h]
  rfl

lemma pushSteps_nil (bk : Nat → Nat → Nat) (c : Nat → Nat → ℚ) (fuel : Nat) :
    pushSteps bk c fuel 0 0 = [] := by
  cases fuel
  · rfl
  · rw [pushSteps, if_pos ⟨rfl, rfl⟩]

/-- A cell records an up move exactly when it was legal; then its A-run
counter increments the upper neighbour's, otherwise it resets to 0. -/
lemma stepCell_gA_eq (P : AlignParams) (mc : ℚ) (d u l : Cell) :
    ((stepCell P mc d u l).bk = 1 ∧ (stepCell P mc d u l).gA = u.gA + 1
        ∧ (u.gA : Int) < P.maxConsecutiveGaps)
    ∨ ((stepCell P mc d u l).bk ≠ 1 ∧ (stepCell P mc d u l).gA = 0) := by
  by_cases h2 : (u.gA : Int) < P.maxConsecutiveGaps <;>
    by_cases h3 : (l.gB : Int) < P.maxConsecutiveGaps
  · simp only [stepCell, if_pos h2, if_pos h3, oleq, Bool.and_eq_true, decide_eq_true_eq]
    split_ifs <;> simp_all
  · simp only [stepCell, if_pos h2, if_neg h3, oleq, Bool.and_true]
    split_ifs <;> simp_all
  · simp only [stepCell, if_neg h2, if_pos h3, oleq, Bool.true_and]
    split_ifs <;> simp_all
  · simp only [stepCell, if_neg h2, if_neg h3, oleq, Bool.and_self]
    split_ifs <;> simp_all

/-- A cell records a left move exactly when it was legal; then its B-run
counter increments the left neighbour's, otherwise it resets to 0. -/
lemma stepCell_gB_eq (P : AlignParams) (mc : ℚ) (d u l : Cell) :
    ((stepCell P mc d u l).bk = 2 ∧ (stepCell P mc d u l).gB = l.gB + 1
        ∧ (l.gB : Int) < P.maxConsecutiveGaps)
    ∨ ((stepCell P mc d u l).bk ≠ 2 ∧ (stepCell P mc d u l).gB = 0) := by
  by_cases h2 : (u.gA : Int) < P.maxConsecutiveGaps <;>
    by_cases h3 : (l.gB : Int) < P.maxConsecutiveGaps
  · simp only [stepCell, if_pos h2, if_pos h3, oleq, Bool.and_eq_true, decide_eq_true_eq]
    split_ifs <;> simp_all
  · simp only [stepCell, if_pos h2, if_neg h3, oleq, Bool.and_true]
    split_ifs <;> simp_all
  · simp only [stepCell, if_neg h2, if_pos h3, oleq, Bool.true_and]
    split_ifs <;> simp_all
  · simp only [stepCell, if_neg h2, if_neg h3, oleq, Bool.and_self]
    split_ifs <;> simp_all

/-- A cell's recorded move is always one of 0 (diagonal), 1 (up) or
2 (left). -/
lemma stepCell_bk_mem (P : AlignParams) (mc : ℚ) (d u l : Cell) :
    (stepCell P mc d u l).bk = 0 ∨ (stepCell P mc d u l).bk = 1
      ∨ (stepCell P mc d u l).bk = 2 := by
  simp only [stepCell]
  split_ifs <;> simp

/-- Away from the seeded column 0, the A-run counter never exceeds
`maxConsecutiveGaps` (the legality check bounds it). -/
lemma dpTable_gA_bound (P : AlignParams) (c : Nat → Nat → ℚ)
    (hP : 0 ≤ P.maxConsecutiveGaps) :
    ∀ i j, 1 ≤ j → ((dpTable P c i j).gA : Int) ≤ P.maxConsecutiveGaps := by
  intro i j hj
  rcases j with _ | j
  · omega
  rcases i with _ | i
  · show (((row0 P (j + 1)).gA : Int)) ≤ _
    rw [row0]
    simpa using hP
  · have e : dpTable P c (i + 1) (j + 1)
        = stepCell P (c i j) (dpTable P c i j) (dpTable P c i (j + 1))
            (dpTable P c (i + 1) j) := rfl
    rw [e]
    rcases stepCell_gA_eq P (c i j) (dpTable P c i j) (dpTable P c i (j + 1))
        (dpTable P c (i + 1) j) with ⟨_, hg, hlt⟩ | ⟨_, hg⟩
    · rw [hg]
      push_cast
      omega
    · rw [hg]
      simpa using hP

/-- Away from the seeded row 0, the B-run counter never exceeds
`maxConsecutiveGaps`. -/
lemma dpTable_gB_bound (P : AlignParams) (c : Nat → Nat → ℚ)
    (hP : 0 ≤ P.maxConsecutiveGaps) :
    ∀ i j, 1 ≤ i → ((dpTable P c i j).gB : Int) ≤ P.maxConsecutiveGaps := by
  intro i j hi
  rcases i with _ | i
  · omega
  rcases j with _ | j
  · show (((rowSucc P (dpTable P c i) (c i) 0).gB : Int)) ≤ _
    rw [rowSucc]
    simpa using hP
  · have e : dpTable P c (i + 1) (j + 1)
        = stepCell P (c i j) (dpTable P c i j) (dpTable P c i (j + 1))
            (dpTable P c (i + 1) j) := rfl
    rw [e]
    rcases stepCell_gB_eq P (c i j) (dpTable P c i j) (dpTable P c i (j + 1))
        (dpTable P c (i + 1) j) with ⟨_, hg, hlt⟩ | ⟨_, hg⟩
    · rw [hg]
      push_cast
      omega
    · rw [hg]
      simpa using hP

end RunBoundLemmas

section PrefCountLemmas

lemma prefCount_cons_false (p : Step → Bool) (x : Step) (l : List Step) (h : p x = false) :
    prefCount p (x :: l) = 0 := by
  simp [prefCount, h]

lemma prefCount_cons_true (p : Step → Bool) (x : Step) (l : List Step) (h : p x = true) :
    prefCount p (x :: l) = prefCount p l + 1 := by
  simp [prefCount, h]

lemma prefCount_prefix_all (p : Step → Bool) :
    ∀ (v : List Step) (x : Step) (r : List Step), (∀ y ∈ v, p y = true) → p x = false →
      prefCount p (v ++ x :: r) = v.length := by
  intro v
  induction v with
  | nil =>
    intro x r _ hx
    simpa using prefCount_cons_false p x r hx
  | cons y ys ih =>
    intro x r hv hx
    rw [List.cons_append, prefCount_cons_true p y _ (hv y (List.mem_cons_self y ys)),
      ih x r (fun z hz => hv z (List.mem_cons_of_mem y hz)) hx, List.length_cons]

lemma dpTable_gA_row0 (P : AlignParams) (c : Nat → Nat → ℚ) :
    ∀ j, (dpTable P c 0 j).gA = 0
  | 0 => rfl
  | _ + 1 => rfl

lemma dpTable_gB_col0 (P : AlignParams) (c : Nat → Nat → ℚ) :
    ∀ i, (dpTable P c i 0).gB = 0
  | 0 => rfl
  | _ + 1 => rfl

/-- The length of the maximal leading run of deletions in the push-order
backtrace from `(i, j)` is exactly the table's A-run counter there. -/
lemma prefCount_del_eq_gA (P : AlignParams) (c : Nat → Nat → ℚ) :
    ∀ fuel i j, i + j ≤ fuel →
      prefCount isDel (pushSteps (fun a b => (dpTable P c a b).bk) c fuel i j)
        = (dpTable P c i j).gA := by
  intro fuel
  induction fuel with
  | zero =>
    intro i j h
    have hi : i = 0 := by omega
    have hj : j = 0 := by omega
    subst hi; subst hj
    rfl
  | succ fuel ih =>
    intro i j h
    by_cases hij : i = 0 ∧ j = 0
    · obtain ⟨hi, hj⟩ := hij
      subst hi; subst hj
      rw [pushSteps_nil]
      rfl
    · rcases hbk : (fun a b => (dpTable P c a b).bk) i j with _ | _ | k
      · -- diagonal move: run resets
        rw [pushSteps_eq_match _ c fuel i j hij hbk, prefCount_cons_false _ _ _ rfl]
        rcases i with _ | i
        · exact (dpTable_gA_row0 P c j).symm
        · rcases j with _ | j
          · rw [show (fun a b => (dpTable P c a b).bk) (i + 1) 0
                = (dpTable P c (i + 1) 0).bk from rfl, dpTable_bk_col0] at hbk
            omega
          · rcases stepCell_gA_eq P (c i j) (dpTable P c i j) (dpTable P c i (j + 1))
                (dpTable P c (i + 1) j) with ⟨hb, _, _⟩ | ⟨_, hg⟩
            · rw [show (fun a b => (dpTable P c a b).bk) (i + 1) (j + 1)
                  = (stepCell P (c i j) (dpTable P c i j) (dpTable P c i (j + 1))
                      (dpTable P c (i + 1) j)).bk from rfl, hb] at hbk
              omega
            · exact (hg).symm
      · -- up move: run increments
        have hi : 1 ≤ i := by
          rcases i with _ | i
          · rcases j with _ | j
            · exact absurd ⟨rfl, rfl⟩ hij
            · rw [show (fun a b => (dpTable P c a b).bk) 0 (j + 1)
                  = (dpTable P c 0 (j + 1)).bk from rfl, dpTable_bk_row0] at hbk
              omega
          · omega
        rw [pushSteps_eq_del _ c fuel i j hij hbk, prefCount_cons_true _ _ _ rfl,
          ih (i - 1) j (by omega)]
        rcases i with _ | i
        · omega
        · simp only [Nat.add_sub_cancel]
          rcases j with _ | j
          · rfl
          · rcases stepCell_gA_eq P (c i j) (dpTable P c i j) (dpTable P c i (j + 1))
                (dpTable P c (i + 1) j) with ⟨_, hg, _⟩ | ⟨hb, _⟩
            · exact (hg).symm
            · rw [show (fun a b => (dpTable P c a b).bk) (i + 1) (j + 1)
                  = (stepCell P (c i j) (dpTable P c i j) (dpTable P c i (j + 1))
                      (dpTable P c (i + 1) j)).bk from rfl] at hbk
              exact absurd hbk hb
      · -- left move: run resets
        rw [pushSteps_eq_ins _ c fuel i j k hij hbk, prefCount_cons_false _ _ _ rfl]
        rcases i with _ | i
        · exact (dpTable_gA_row0 P c j).symm
        · rcases j with _ | j
          · rw [show (fun a b => (dpTable P c a b).bk) (i + 1) 0
                = (dpTable P c (i + 1) 0).bk from rfl, dpTable_bk_col0] at hbk
            omega
          · rcases stepCell_gA_eq P (c i j) (dpTable P c i j) (dpTable P c i (j + 1))
                (dpTable P c (i + 1) j) with ⟨hb, _, _⟩ | ⟨_, hg⟩
            · rw [show (fun a b => (dpTable P c a b).bk) (i + 1) (j + 1)
                  = (stepCell P (c i j) (dpTable P c i j) (dpTable P c i (j + 1))
                      (dpTable P c (i + 1) j)).bk from rfl, hb] at hbk
              omega
            · exact (hg).symm

/-- The length of the maximal leading run of insertions in the
push-order backtrace from `(i, j)` is exactly the table's B-run counter
there. -/
lemma prefCount_ins_eq_gB (P : AlignParams) (c : Nat → Nat → ℚ) :
    ∀ fuel i j, i + j ≤ fuel →
      prefCount isIns (pushSteps (fun a b => (dpTable P c a b).bk) c fuel i j)
        = (dpTable P c i j).gB := by
  intro fuel
  induction fuel with
  | zero =>
    intro i j h
    have hi : i = 0 := by omega
    have hj : j = 0 := by omega
    subst hi; subst hj
    rfl
  | succ fuel ih =>
    intro i j h
    by_cases hij : i = 0 ∧ j = 0
    · obtain ⟨hi, hj⟩ := hij
      subst hi; subst hj
      rw [pushSteps_nil]
      rfl
    · rcases hbk : (fun a b => (dpTable P c a b).bk) i j with _ | _ | k
      · -- diagonal move: run resets
        rw [pushSteps_eq_match _ c fuel i j hij hbk, prefCount_cons_false _ _ _ rfl]
        rcases j with _ | j
        · exact (dpTable_gB_col0 P c i).symm
        · rcases i with _ | i
          · rw [show (fun a b => (dpTable P c a b).bk) 0 (j + 1)
                = (dpTable P c 0 (j + 1)).bk from rfl, dpTable_bk_row0] at hbk
            omega
          · rcases stepCell_gB_eq P (c i j) (dpTable P c i j) (dpTable P c i (j + 1))
                (dpTable P c (i + 1) j) with ⟨hb, _, _⟩ | ⟨_, hg⟩
            · rw [show (fun a b => (dpTable P c a b).bk) (i + 1) (j + 1)
                  = (stepCell P (c i j) (dpTable P c i j) (dpTable P c i (j + 1))
                      (dpTable P c (i + 1) j)).bk from rfl, hb] at hbk
              omega
            · exact (hg).symm
      · -- up move: run resets
        rw [pushSteps_eq_del _ c fuel i j hij hbk, prefCount_cons_false _ _ _ rfl]
        rcases j with _ | j
        · exact (dpTable_gB_col0 P c i).symm
        · rcases i with _ | i
          · rw [show (fun a b => (dpTable P c a b).bk) 0 (j + 1)
                = (dpTable P c 0 (j + 1)).bk from rfl, dpTable_bk_row0] at hbk
            omega
          · rcases stepCell_gB_eq P (c i j) (dpTable P c i j) (dpTable P c i (j + 1))
                (dpTable P c (i + 1) j) with ⟨hb, _, _⟩ | ⟨_, hg⟩
            · rw [show (fun a b => (dpTable P c a b).bk) (i + 1) (j + 1)
                  = (stepCell P (c i j) (dpTable P c i j) (dpTable P c i (j + 1))
                      (dpTable P c (i + 1) j)).bk from rfl, hb] at hbk
              omega
            · exact (hg).symm
      · -- left move: run increments
        have hj : 1 ≤ j := by
          rcases j with _ | j
          · rcases i with _ | i
            · exact absurd ⟨rfl, rfl⟩ hij
            · rw [show (fun a b => (dpTable P c a b).bk) (i + 1) 0
                  = (dpTable P c (i + 1) 0).bk from rfl, dpTable_bk_col0] at hbk
              omega
          · omega
        rw [pushSteps_eq_ins _ c fuel i j k hij hbk, prefCount_cons_true _ _ _ rfl,
          ih i (j - 1) (by omega)]
        rcases j with _ | j
        · omega
        · simp only [Nat.add_sub_cancel]
          rcases i with _ | i
          · rfl
          · rw [show (fun a b => (dpTable P c a b).bk) (i + 1) (j + 1)
                = (stepCell P (c i j) (dpTable P c i j) (dpTable P c i (j + 1))
                    (dpTable P c (i + 1) j)).bk from rfl] at hbk
            have hmem := stepCell_bk_mem P (c i j) (dpTable P c i j) (dpTable P c i (j + 1))
              (dpTable P c (i + 1) j)
            have hk2 : (stepCell P (c i j) (dpTable P c i j) (dpTable P c i (j + 1))
                (dpTable P c (i + 1) j)).bk = 2 := by omega
            rcases stepCell_gB_eq P (c i j) (dpTable P c i j) (dpTable P c i (j + 1))
                (dpTable P c (i + 1) j) with ⟨_, hg, _⟩ | ⟨hb, _⟩
            · exact (hg).symm
            · exact absurd hk2 hb

end PrefCountLemmas

section SuffixLemmas

lemma bk_boundary_cases (bk : Nat → Nat → Nat) (h0 : ∀ j, bk 0 (j + 1) = 2)
    (h1 : ∀ i, bk (i + 1) 0 = 1) (i j : Nat) (hij : ¬(i = 0 ∧ j = 0)) :
    (bk i j = 0 → 1 ≤ i ∧ 1 ≤ j) ∧ (bk i j = 1 → 1 ≤ i)
      ∧ (∀ k, bk i j = k + 2 → 1 ≤ j) := by
  rcases i with _ | i <;> rcases j with _ | j
  · exact absurd ⟨rfl, rfl⟩ hij
  · have := h0 j
    exact ⟨by omega, by omega, fun k => by omega⟩
  · have := h1 i
    exact ⟨by omega, by omega, fun k => by omega⟩
  · exact ⟨fun _ => ⟨by omega, by omega⟩, fun _ => by omega, fun k _ => by omega⟩

/-- The backtrace result does not depend on the fuel, as long as it is
at least `i + j` (each move strictly decreases `i + j`). -/
lemma pushSteps_fuel_irrel (bk : Nat → Nat → Nat) (c : Nat → Nat → ℚ)
    (h0 : ∀ j, bk 0 (j + 1) = 2) (h1 : ∀ i, bk (i + 1) 0 = 1) :
    ∀ f g i j, i + j ≤ f → i + j ≤ g → pushSteps bk c f i j = pushSteps bk c g i j := by
  intro f
  induction f with
  | zero =>
    intro g i j hf hg
    have hi : i = 0 := by omega
    have hj : j = 0 := by omega
    subst hi; subst hj
    rw [pushSteps_nil, pushSteps_nil]
  | succ f ih =>
    intro g i j hf hg
    by_cases hij : i = 0 ∧ j = 0
    · obtain ⟨hi, hj⟩ := hij
      subst hi; subst hj
      rw [pushSteps_nil, pushSteps_nil]
    · have hb := bk_boundary_cases bk h0 h1 i j hij
      rcases g with _ | g
      · exfalso
        omega
      · rcases hbk : bk i j with _ | _ | k
        · obtain ⟨hi, hj⟩ := hb.1 hbk
          rw [pushSteps_eq_match bk c f i j hij hbk, pushSteps_eq_match bk c g i j hij hbk]
          congr 1
          exact ih g (i - 1) (j - 1) (by omega) (by omega)
        · have hi := hb.2.1 hbk
          rw [pushSteps_eq_del bk c f i j hij hbk, pushSteps_eq_del bk c g i j hij hbk]
          congr 1
          exact ih g (i - 1) j (by omega) (by omega)
        · have hj := hb.2.2 k hbk
          rw [pushSteps_eq_ins bk c f i j k hij hbk, pushSteps_eq_ins bk c g i j k hij hbk]
          congr 1
          exact ih g i (j - 1) (by omega) (by omega)

lemma pushSteps_self_fuel (bk : Nat → Nat → Nat) (c : Nat → Nat → ℚ)
    (h0 : ∀ j, bk 0 (j + 1) = 2) (h1 : ∀ i, bk (i + 1) 0 = 1)
    (fuel i j : Nat) (h : i + j ≤ fuel) :
    pushSteps bk c fuel i j = pushSteps bk c (i + j) i j :=
  pushSteps_fuel_irrel bk c h0 h1 fuel (i + j) i j h le_rfl

/-- The backtrace is linear: every suffix of a push list is itself the
push list of an intermediate state. -/
lemma pushSteps_suffix (bk : Nat → Nat → Nat) (c : Nat → Nat → ℚ)
    (h0 : ∀ j, bk 0 (j + 1) = 2) (h1 : ∀ i, bk (i + 1) 0 = 1) :
    ∀ fuel i j, i + j ≤ fuel → ∀ s, s <:+ pushSteps bk c fuel i j →
      ∃ a b, a ≤ i ∧ b ≤ j ∧ s = pushSteps bk c (a + b) a b := by
  intro fuel
  induction fuel with
  | zero =>
    intro i j h s hs
    have hi : i = 0 := by omega
    have hj : j = 0 := by omega
    subst hi; subst hj
    rw [pushSteps_nil] at hs
    have hnil : s = [] := List.suffix_nil.mp hs
    exact ⟨0, 0, le_rfl, le_rfl, by rw [hnil, pushSteps_nil]⟩
  | succ fuel ih =>
    intro i j h s hs
    by_cases hij : i = 0 ∧ j = 0
    · obtain ⟨hi, hj⟩ := hij
      subst hi; subst hj
      rw [pushSteps_nil] at hs
      have hnil : s = [] := List.suffix_nil.mp hs
      exact ⟨0, 0, le_rfl, le_rfl, by rw [hnil, pushSteps_nil]⟩
    · have hb := bk_boundary_cases bk h0 h1 i j hij
      rcases hbk : bk i j with _ | _ | k
      · obtain ⟨hi, hj⟩ := hb.1 hbk
        rw [pushSteps_eq_match bk c fuel i j hij hbk] at hs
        rcases List.suffix_cons_iff.mp hs with hwhole | htail
        · refine ⟨i, j, le_rfl, le_rfl, ?_⟩
          rw [hwhole, ← pushSteps_eq_match bk c fuel i j hij hbk]
          exact pushSteps_self_fuel bk c h0 h1 (fuel + 1) i j (by omega)
        · obtain ⟨a, b, ha, hbb, heq⟩ := ih (i - 1) (j - 1) (by omega) s htail
          exact ⟨a, b, by omega, by omega, heq⟩
      · have hi := hb.2.1 hbk
        rw [pushSteps_eq_del bk c fuel i j hij hbk] at hs
        rcases List.suffix_cons_iff.mp hs with hwhole | htail
        · refine ⟨i, j, le_rfl, le_rfl, ?_⟩
          rw [hwhole, ← pushSteps_eq_del bk c fuel i j hij hbk]
          exact pushSteps_self_fuel bk c h0 h1 (fuel + 1) i j (by omega)
        · obtain ⟨a, b, ha, hbb, heq⟩ := ih (i - 1) j (by omega) s htail
          exact ⟨a, b, by omega, hbb, heq⟩
      · have hj := hb.2.2 k hbk
        rw [pushSteps_eq_ins bk c fuel i j k hij hbk] at hs
        rcases List.suffix_cons_iff.mp hs with hwhole | htail
        · refine ⟨i, j, le_rfl, le_rfl, ?_⟩
          rw [hwhole, ← pushSteps_eq_ins bk c fuel i j k hij hbk]
          exact pushSteps_self_fuel bk c h0 h1 (fuel + 1) i j (by omega)
        · obtain ⟨a, b, ha, hbb, heq⟩ := ih i (j - 1) (by omega) s htail
          exact ⟨a, b, ha, by omega, heq⟩

/-- Once the backtrace reaches column 0 it emits only deletions. -/
lemma pushSteps_col0_del (bk : Nat → Nat → Nat) (c : Nat → Nat → ℚ)
    (h1 : ∀ i, bk (i + 1) 0 = 1) :
    ∀ fuel i x, x ∈ pushSteps bk c fuel i 0 → isDel x = true := by
  intro fuel
  induction fuel with
  | zero =>
    intro i x hx
    simp [pushSteps] at hx
  | succ fuel ih =>
    intro i x hx
    rcases i with _ | i
    · rw [pushSteps_nil] at hx
      simp at hx
    · rw [pushSteps_eq_del bk c fuel (i + 1) 0 (by simp) (h1 i)] at hx
      rcases List.mem_cons.mp hx with rfl | hx'
      · rfl
      · exact ih i x hx'

/-- Once the backtrace reaches row 0 it emits only insertions. -/
lemma pushSteps_row0_ins (bk : Nat → Nat → Nat) (c : Nat → Nat → ℚ)
    (h0 : ∀ j, bk 0 (j + 1) = 2) :
    ∀ fuel j x, x ∈ pushSteps bk c fuel 0 j → isIns x = true := by
  intro fuel
  induction fuel with
  | zero =>
    intro j x hx
    simp [pushSteps] at hx
  | succ fuel ih =>
    intro j x hx
    rcases j with _ | j
    · rw [pushSteps_nil] at hx
      simp at hx
    · rw [pushSteps_eq_ins bk c fuel 0 (j + 1) 0 (by simp) (h0 j)] at hx
      rcases List.mem_cons.mp hx with rfl | hx'
      · rfl
      · exact ih j x hx'

end SuffixLemmas

/-- In a DP-path script, every run of consecutive deletions that is
preceded by a non-deletion step has length at most
`maxConsecutiveGaps`. -/
lemma dpPath_del_runs (P : AlignParams) (c : Nat → Nat → ℚ) (n m : Nat)
    (hP : 0 ≤ P.maxConsecutiveGaps) :
    RunsBoundedAfterStart isDel P.maxConsecutiveGaps.toNat (dpPath P c n m) := by
  intro u x v w hsplit hx hv
  have h0 : ∀ j, (fun a b => (dpTable P c a b).bk) 0 (j + 1) = 2 := dpTable_bk_row0 P c
  have h1 : ∀ i, (fun a b => (dpTable P c a b).bk) (i + 1) 0 = 1 := dpTable_bk_col0 P c
  have hrev : (dpPath P c n m).reverse
      = pushSteps (fun a b => (dpTable P c a b).bk) c (n + m) n m := by
    unfold dpPath
    exact List.reverse_reverse _
  have hpush : v.reverse ++ x :: u.reverse
      <:+ pushSteps (fun a b => (dpTable P c a b).bk) c (n + m) n m := by
    refine ⟨w.reverse, ?_⟩
    rw [← hrev, hsplit]
    simp [List.reverse_append]
  obtain ⟨a, b, ha, hb, heq⟩ :=
    pushSteps_suffix (fun a b => (dpTable P c a b).bk) c h0 h1 (n + m) n m le_rfl _ hpush
  have hcount : prefCount isDel (v.reverse ++ x :: u.reverse) = v.length := by
    rw [prefCount_prefix_all isDel v.reverse x u.reverse
      (fun y hy => hv y (List.mem_reverse.mp hy)) hx, List.length_reverse]
  rcases b with _ | b
  · exfalso
    have hxmem : x ∈ v.reverse ++ x :: u.reverse := by simp
    rw [heq] at hxmem
    have hdel := pushSteps_col0_del (fun a b => (dpTable P c a b).bk) c h1 (a + 0) a x hxmem
    rw [hx] at hdel
    exact Bool.false_ne_true hdel
  · have hgA := prefCount_del_eq_gA P c (a + (b + 1)) a (b + 1) le_rfl
    rw [← heq, hcount] at hgA
    have hbound := dpTable_gA_bound P c hP a (b + 1) (by omega)
    omega

/-- In a DP-path script, every run of consecutive insertions that is
preceded by a non-insertion step has length at most
`maxConsecutiveGaps`. -/
lemma dpPath_ins_runs (P : AlignParams) (c : Nat → Nat → ℚ) (n m : Nat)
    (hP : 0 ≤ P.maxConsecutiveGaps) :
    RunsBoundedAfterStart isIns P.maxConsecutiveGaps.toNat (dpPath P c n m) := by
  intro u x v w hsplit hx hv
  have h0 : ∀ j, (fun a b => (dpTable P c a b).bk) 0 (j + 1) = 2 := dpTable_bk_row0 P c
  have h1 : ∀ i, (fun a b => (dpTable P c a b).bk) (i + 1) 0 = 1 := dpTable_bk_col0 P c
  have hrev : (dpPath P c n m).reverse
      = pushSteps (fun a b => (dpTable P c a b).bk) c (n + m) n m := by
    unfold dpPath
    exact List.reverse_reverse _
  have hpush : v.reverse ++ x :: u.reverse
      <:+ pushSteps (fun a b => (dpTable P c a b).bk) c (n + m) n m := by
    refine ⟨w.reverse, ?_⟩
    rw [← hrev, hsplit]
    simp [List.reverse_append]
  obtain ⟨a, b, ha, hb, heq⟩ :=
    pushSteps_suffix (fun a b => (dpTable P c a b).bk) c h0 h1 (n + m) n m le_rfl _ hpush
  have hcount : prefCount isIns (v.reverse ++ x :: u.reverse) = v.length := by
    rw [prefCount_prefix_all isIns v.reverse x u.reverse
      (fun y hy => hv y (List.mem_reverse.mp hy)) hx, List.length_reverse]
  rcases a with _ | a
  · exfalso
    have hxmem : x ∈ v.reverse ++ x :: u.reverse := by simp
    rw [heq] at hxmem
    have hins := pushSteps_row0_ins (fun a b => (dpTable P c a b).bk) c h0 (0 + b) b x hxmem
    rw [hx] at hins
    exact Bool.false_ne_true hins
  · have hgB := prefCount_ins_eq_gB P c ((a + 1) + b) (a + 1) b le_rfl
    rw [← heq, hcount] at hgB
    have hbound := dpTable_gB_bound P c hP (a + 1) b (by omega)
    omega

/-- Claim C4 (amended): with tolerance `t` in 1..5 every maximal run of
consecutive DeleteA steps other than a run starting at the very
beginning of the script has length at most `maxConsecutiveGaps = t`, and
likewise for InsertB runs.  A leading run is exempt: it comes from the
seeded boundary column/row of the table, where the source increments the
gap-run counters without the legality check, so it can exceed `t` (see
the counterexample). -/
theorem C4_gap_run_bound (c : Nat → Nat → ℚ) (n m : Nat) (t : Int)
    (h1 : 1 ≤ t) (h5 : t ≤ 5) :
    RunsBoundedAfterStart isDel t.toNat (buildAlignmentDP c n m t)
    ∧ RunsBoundedAfterStart isIns t.toNat (buildAlignmentDP c n m t) := by
  have ht : t ≠ 0 := by omega
  have hmg : (alignmentParamsFromMatchWindow t).maxConsecutiveGaps = t := by
    simp only [alignmentParamsFromMatchWindow]
    omega
  unfold buildAlignmentDP
  rw [if_neg ht]
  constructor
  · have h := dpPath_del_runs (alignmentParamsFromMatchWindow t) c n m (by rw [hmg]; omega)
    rw [hmg] at h
    exact h
  · have h := dpPath_ins_runs (alignmentParamsFromMatchWindow t) c n m (by rw [hmg]; omega)
    rw [hmg] at h
    exact h

/-- Witness for C4 at tolerance 1 on a 3-page vs 1-page comparison with
all pairwise costs 1. -/
theorem C4_gap_run_bound_witness :
    RunsBoundedAfterStart isDel (1 : Int).toNat (buildAlignmentDP (fun _ _ => (1 : ℚ)) 3 1 1)
    ∧ RunsBoundedAfterStart isIns (1 : Int).toNat (buildAlignmentDP (fun _ _ => (1 : ℚ)) 3 1 1) :=
  C4_gap_run_bound (fun _ _ => (1 : ℚ)) 3 1 1 (by norm_num) (by norm_num)

set_option maxRecDepth 8000 in
/-- Counterexample to C4 as stated: tolerance 1, pages wholly dissimilar
(all pairwise costs 1, e.g. blank vs black scanned pages), documents of
3 and 1 pages.  The script starts with a run of two consecutive DeleteA
steps even though `maxConsecutiveGaps = 1`: the leading run comes from
the seeded boundary column of the DP table, which is filled without the
gap legality check. -/
theorem C4_counterexample :
    buildAlignmentDP (fun _ _ => (1 : ℚ)) 3 1 1
      = [Step.deleteA 0, Step.deleteA 1, Step.insertB 0, Step.deleteA 2]
    ∧ (alignmentParamsFromMatchWindow 1).maxConsecutiveGaps = 1
    ∧ ¬ (∀ v w, buildAlignmentDP (fun _ _ => (1 : ℚ)) 3 1 1 = v ++ w →
          (∀ y ∈ v, isDel y = true) → v.length ≤ 1) := by
  refine ⟨?_, rfl, ?_⟩
  · with_unfolding_all decide
  · intro hcl
    have h2 := hcl [Step.deleteA 0, Step.deleteA 1] [Step.insertB 0, Step.deleteA 2]
      (by with_unfolding_all decide) (by decide)
    simp at h2
